import Mathlib

/-!
Verification development for the interactive heart-rate charting engine.

The definitions below are a shallow embedding of the chart components found in
the Svelte sources (FirstComparison.svelte and the single-subject chart):
JavaScript numbers are modelled as rationals, nullable fields as Option, and
the d3 helpers actually invoked by the code (bisector.left, scaleLinear,
scaleTime, min, max, the linear nice() rounding) are embedded following the
d3 reference implementations.  JavaScript truthiness of a numeric field
(null and 0 are both falsy) is modelled explicitly, since the chart code
relies on it when re-initializing the time range.
-/

/-- A heart-rate sample, mirroring the HeartRateData record of the source:
value (bpm), timestamp (seconds), student (subject id). -/
structure Sample where
  student : String
  timestamp : ℚ
  value : ℚ
deriving DecidableEq, Repr

/-- The committed time window.  The source field named end is a reserved word
in Lean, so it is called endT here. -/
structure TimeWindow where
  start : ℚ
  endT : ℚ
deriving DecidableEq, Repr

/-- Chart drawing-surface configuration: fixed pixel size and margins. -/
structure ChartConfig where
  width : ℚ
  height : ℚ
  top : ℚ
  right : ℚ
  bottom : ℚ
  left : ℚ
deriving DecidableEq, Repr

/-- The single-subject chart configuration from the source:
width 800, height 450, margin top 50 right 100 bottom 80 left 80. -/
def cfg800 : ChartConfig := ⟨800, 450, 50, 100, 80, 80⟩

/-- JavaScript truthiness of a nullable number: null and 0 are falsy.
The chart code tests window bounds with this coercion. -/
def jsTruthyO (o : Option ℚ) : Bool :=
  match o with
  | none => false
  | some q => decide (q ≠ 0)

/-- d3.min over a list of rationals: none on the empty collection. -/
def d3minQ : List ℚ → Option ℚ
  | [] => none
  | x :: xs =>
    match d3minQ xs with
    | none => some x
    | some m => some (min x m)

/-- d3.max over a list of rationals: none on the empty collection. -/
def d3maxQ : List ℚ → Option ℚ
  | [] => none
  | x :: xs =>
    match d3maxQ xs with
    | none => some x
    | some m => some (max x m)

/-- The full-extent window computed by the source whenever it re-initializes
or resets the time range:
start = d3.min(timestamps) ? Number(d3.min(timestamps)) : 0, and likewise
for end with d3.max.  The conditional is JavaScript truthiness, so a minimum
of 0 falls to the 0 fallback (which coincides with the minimum). -/
def fullExtent (hr : List Sample) : Option ℚ × Option ℚ :=
  (if jsTruthyO (d3minQ (hr.map fun s => s.timestamp)) then
      some ((d3minQ (hr.map fun s => s.timestamp)).getD 0)
    else some 0,
   if jsTruthyO (d3maxQ (hr.map fun s => s.timestamp)) then
      some ((d3maxQ (hr.map fun s => s.timestamp)).getD 0)
    else some 0)

/-- createChart lazy initialization of the time range:
if (!timeRange.start || !timeRange.end) both bounds are reset to the full
extent of all loaded samples; otherwise the range is kept. -/
def initTimeRange (hr : List Sample) (tr : Option ℚ × Option ℚ) : Option ℚ × Option ℚ :=
  if jsTruthyO tr.1 = false ∨ jsTruthyO tr.2 = false then fullExtent hr else tr

/-- The resetZoom handler: unconditionally overwrites both window bounds with
the full extent of all loaded samples; the current window is not read. -/
def resetZoom (hr : List Sample) (_tr : Option ℚ × Option ℚ) : Option ℚ × Option ℚ :=
  fullExtent hr

/-- Owned view state of the single-subject chart orchestrator. -/
structure ChartState where
  showAverage : Bool
  timeRange : Option ℚ × Option ℚ
  studentId : String
deriving DecidableEq, Repr

/-- The toggleAverage handler: flips the flag and re-runs createChart, whose
only mutation of owned state is the lazy time-range initialization. -/
def toggleAverage (hr : List Sample) (st : ChartState) : ChartState :=
  { showAverage := !st.showAverage
    timeRange := initTimeRange hr st.timeRange
    studentId := st.studentId }

/-- The sample filter of the multi-series chart: keeps samples whose student
is in the selection and whose timestamp lies in the committed window, where
a null window bound falls back to 0 (JavaScript or-default). -/
def filteredData (hr : List Sample) (sel : List String) (tr : Option ℚ × Option ℚ) :
    List Sample :=
  hr.filter fun d =>
    sel.contains d.student && decide (tr.1.getD 0 ≤ d.timestamp) &&
      decide (d.timestamp ≤ tr.2.getD 0)

/-- Insertion step of the sort used to model Array.sort with an ascending
numeric comparator. -/
def insertByKey {α : Type} {β : Type} [LinearOrder β] (key : α → β) (a : α) :
    List α → List α
  | [] => [a]
  | b :: bs => if key a ≤ key b then a :: b :: bs else b :: insertByKey key a bs

/-- Sort by an ascending numeric key, modelling data.sort((a, b) => k(a) - k(b)). -/
def sortByKey {α : Type} {β : Type} [LinearOrder β] (key : α → β) : List α → List α
  | [] => []
  | a :: as => insertByKey key a (sortByKey key as)

/-- The per-subject series consumed by rendering and search: the group of the
filtered data for one student (d3.group preserves order, so the group equals
the order-preserving filter), sorted ascending by timestamp as the source
does before drawing each line and searching it. -/
def studentSeries (hr : List Sample) (sel : List String) (tr : Option ℚ × Option ℚ)
    (s : String) : List Sample :=
  sortByKey (fun d => d.timestamp)
    ((filteredData hr sel tr).filter fun d => d.student == s)

/-- Value of a decimal digit character, none for a non-digit. -/
def digitVal (c : Char) : Option ℕ :=
  if c = '0' then some 0 else if c = '1' then some 1 else if c = '2' then some 2
  else if c = '3' then some 3 else if c = '4' then some 4 else if c = '5' then some 5
  else if c = '6' then some 6 else if c = '7' then some 7 else if c = '8' then some 8
  else if c = '9' then some 9 else none

/-- Parse a non-empty all-digit character list as a natural number. -/
def parseDigits : List Char → Option ℕ
  | [] => none
  | c :: cs =>
    match digitVal c, parseDigits cs with
    | none, _ => none
    | some d, none => if cs = [] then some d else none
    | some d, some rest => some (d * 10 ^ cs.length + rest)

/-- Numeric key of a student id: parseInt(id.substring(1)) for ids of the
shape S followed by digits, defaulting to 0 otherwise. -/
def studentKey (s : String) : ℕ :=
  (parseDigits (s.data.drop 1)).getD 0

/-- sortStudentIds of the source: sort ids by the numeric value of the part
after the leading character. -/
def sortStudentIds (students : List String) : List String :=
  sortByKey studentKey students

/-- The fixed ordered palette of the multi-series chart color scale. -/
def palette : List String :=
  ["#4361EE", "#3A0CA3", "#7209B7", "#F72585", "#4CC9F0",
   "#06D6A0", "#118AB2", "#FFD166", "#FB8500", "#2EC4B6"]

/-- The fixed domain of the ordinal color scale. -/
def colorDomain : List String :=
  ["S1", "S2", "S3", "S4", "S5", "S6", "S7", "S8", "S9", "S10"]

/-- d3.scaleOrdinal on its fixed domain: the color at the index of the
subject in the domain.  Subjects outside the fixed domain are out of scope
for the legend claims. -/
def colorOf (s : String) : String :=
  (palette.get? (colorDomain.indexOf s)).getD ""

/-- toggleStudentSelection of the source: remove the student if present,
otherwise append it at the end of the selection. -/
def toggleStudentSelection (student : String) (selectedStudents : List String) :
    List String :=
  if selectedStudents.contains student then
    selectedStudents.filter fun s => s != student
  else selectedStudents ++ [student]

/-- Worker for jsSetDedup: keep elements not seen before, in order. -/
def jsSetDedupGo (seen : List String) : List String → List String
  | [] => []
  | x :: xs =>
    if seen.contains x then jsSetDedupGo seen xs
    else x :: jsSetDedupGo (x :: seen) xs

/-- JavaScript Set insertion order: first occurrence of each element. -/
def jsSetDedup (l : List String) : List String :=
  jsSetDedupGo [] l

/-- selectAllStudents of the source: the numerically sorted deduplicated
list of all subject ids in the data. -/
def selectAllStudents (hr : List Sample) : List String :=
  sortStudentIds (jsSetDedup (hr.map fun s => s.student))

/-- The legend construction: one entry per currently selected subject, in the
order of the selection list, carrying the subject color. -/
def legendItems (sel : List String) : List (String × String) :=
  sel.map fun s => (s, colorOf s)

/-- d3 scaleLinear evaluation: interpolate(r0, r1)(normalize(d0, d1)(x)).
When the domain is degenerate d3 normalize yields the constant 1/2, so the
scale collapses to the mid-range pixel. -/
def scaleLinearAt (d0 d1 r0 r1 x : ℚ) : ℚ :=
  if d1 - d0 = 0 then (r0 + r1) / 2
  else r0 + (x - d0) / (d1 - d0) * (r1 - r0)

/-- The time scale of the chart in milliseconds: scaleTime over
[start*1000, end*1000] onto [left, width-right]. -/
def xScaleMs (cfg : ChartConfig) (w : TimeWindow) (tms : ℚ) : ℚ :=
  scaleLinearAt (w.start * 1000) (w.endT * 1000) cfg.left (cfg.width - cfg.right) tms

/-- The exact inverse of the time scale, as computed by d3 scale.invert:
interpolate over the domain of the normalized pixel position. -/
def xScaleInvertMs (cfg : ChartConfig) (w : TimeWindow) (x : ℚ) : ℚ :=
  w.start * 1000 +
    (x - cfg.left) / (cfg.width - cfg.right - cfg.left) * (w.endT * 1000 - w.start * 1000)

/-- Pixel to time in seconds: xScale.invert(x).getTime() / 1000 in the
rational model. -/
def timeOfPixel (cfg : ChartConfig) (w : TimeWindow) (x : ℚ) : ℚ :=
  xScaleInvertMs cfg w x / 1000

/-- The brushed handler at drag end: a null selection returns with no state
change; otherwise both window bounds are overwritten with the inverted
endpoints of the selection (d3 delivers selections low-to-high) and a
recompute is triggered. -/
def brushedStep (cfg : ChartConfig) (cur : TimeWindow) (sel : Option (ℚ × ℚ)) :
    TimeWindow :=
  match sel with
  | none => cur
  | some (x0, x1) => ⟨timeOfPixel cfg cur x0, timeOfPixel cfg cur x1⟩

/-- Powers of a rational with natural exponent, kept structural so concrete
instances reduce. -/
def qpowN (q : ℚ) : ℕ → ℚ
  | 0 => 1
  | n + 1 => q * qpowN q n

/-- Integer powers of ten over ℚ. -/
def qpow10 : ℤ → ℚ
  | Int.ofNat n => qpowN 10 n
  | Int.negSucc n => (qpowN 10 (n + 1))⁻¹

/-- Count of divisions by 10 until the argument drops below 10; fuel-bounded
helper for the floor base-10 logarithm of a rational at least 1. -/
def upCount : ℕ → ℚ → ℕ
  | 0, _ => 0
  | f + 1, q => if q < 10 then 0 else upCount f (q / 10) + 1

/-- Count of multiplications by 10 until the argument reaches 1; fuel-bounded
helper for the floor base-10 logarithm of a rational below 1. -/
def downCount : ℕ → ℚ → ℕ
  | 0, _ => 0
  | f + 1, q => if 1 ≤ q then 0 else downCount f (q * 10) + 1

/-- Floor base-10 logarithm of a positive rational, mirroring
Math.floor(Math.log(step) / Math.LN10) in the d3 tick computation (the exact
logarithm; the float rounding slop of Math.log is absorbed by the error
thresholds of tickIncrement, which only compare against sqrt(50), sqrt(10)
and sqrt(2)). -/
def ratLog10 (q : ℚ) : ℤ :=
  if 1 ≤ q then ((upCount (Int.toNat ⌊q⌋) q : ℕ) : ℤ)
  else -((downCount (Int.toNat ⌈q⁻¹⌉) q : ℕ) : ℤ)

/-- The tick factor chain of d3 tickIncrement: the relative error picks the
multiplier 10, 5, 2 or 1 by comparison against sqrt(50), sqrt(10) and
sqrt(2) (squared comparisons here, exact for a positive error). -/
def tickFactor (error : ℚ) : ℚ :=
  if 50 ≤ error ^ 2 then 10
  else if 10 ≤ error ^ 2 then 5
  else if 2 ≤ error ^ 2 then 2
  else 1

/-- d3 tickIncrement(start, stop, count): the raw step (stop-start)/count is
rounded to the nearest 1/2/5/10 times a power of ten via the tick factor of
the relative error.  A sub-unit step is encoded, as in d3, by returning the
negated reciprocal power over the factor; a non-positive raw step returns 0
(d3 produces 0 or a non-finite value there and its nice() loop stops). -/
def tickIncrementQ (start stop count : ℚ) : ℚ :=
  let step := (stop - start) / count
  if 0 < step then
    let power : ℤ := ratLog10 step
    let error : ℚ := step / qpow10 power
    if 0 ≤ power then tickFactor error * qpow10 power
    else -(qpow10 (-power)) / tickFactor error
  else 0

/-- The d3 nice(start, stop, count) loop: recompute the tick increment and
round the bounds outward to multiples of it, until the increment stabilizes
(or is 0).  The fuel bounds the loop, which in practice stabilizes after at
most two roundings; every exit returns the current pair, exactly as d3 does. -/
def niceLoop : ℕ → Option ℚ → ℚ → ℚ → ℚ × ℚ
  | 0, _, start, stop => (start, stop)
  | f + 1, prestep, start, stop =>
    let step := tickIncrementQ start stop 10
    if some step = prestep ∨ step = 0 then (start, stop)
    else if 0 < step then
      niceLoop f (some step) ((⌊start / step⌋ : ℤ) * step) ((⌈stop / step⌉ : ℤ) * step)
    else
      niceLoop f (some step) ((⌈start * step⌉ : ℤ) / step) ((⌊stop * step⌋ : ℤ) / step)

/-- scale.nice() on a linear scale domain, with d3 default tick count 10. -/
def niceDomain (start stop : ℚ) : ℚ × ℚ :=
  niceLoop 10 none start stop

/-- The y domain before nice-rounding, exactly as built by the source:
[max(0, (d3.min(values) or 0) * 0.9), (d3.max(values) or 0) * 1.1]. -/
def yDomainRaw (vals : List ℚ) : ℚ × ℚ :=
  (max 0 ((d3minQ vals).getD 0 * (9 / 10)), (d3maxQ vals).getD 0 * (11 / 10))

/-- The bpm scale of the chart: the nice-rounded y domain mapped onto
[height - bottom, top]. -/
def yScaleFor (cfg : ChartConfig) (vals : List ℚ) (v : ℚ) : ℚ :=
  scaleLinearAt (niceDomain (yDomainRaw vals).1 (yDomainRaw vals).2).1
    (niceDomain (yDomainRaw vals).1 (yDomainRaw vals).2).2
    (cfg.height - cfg.bottom) cfg.top v

/-- A nice tick increment: 1, 2, 5 or 10 times an integer power of ten. -/
def IsNiceInc (inc : ℚ) : Prop :=
  0 < inc ∧ ∃ z : ℤ,
    inc = qpow10 z ∨ inc = 2 * qpow10 z ∨ inc = 5 * qpow10 z ∨ inc = 10 * qpow10 z

/-- Both bounds are integer multiples of one common nice increment. -/
def NicePair (a b : ℚ) : Prop :=
  ∃ inc : ℚ, IsNiceInc inc ∧ (∃ m : ℤ, a = m * inc) ∧ ∃ n : ℤ, b = n * inc

/-- The d3 bisector binary search loop (bisector(d => d.timestamp).left):
while lo < hi, probe the middle element; move lo past it when its timestamp
is below the query, otherwise shrink hi to it.  The fuel bounds the loop and
is instantiated with the list length, which dominates hi - lo. -/
def bisectGo (l : List Sample) (q : ℚ) : ℕ → ℕ → ℕ → ℕ
  | 0, lo, _ => lo
  | f + 1, lo, hi =>
    if lo < hi then
      match l.get? ((lo + hi) / 2) with
      | some s =>
        if s.timestamp < q then bisectGo l q f ((lo + hi) / 2 + 1) hi
        else bisectGo l q f lo ((lo + hi) / 2)
      | none => lo
    else lo

/-- d3.bisector(d => d.timestamp).left over the whole series. -/
def bisectLeft (l : List Sample) (q : ℚ) : ℕ :=
  bisectGo l q l.length 0 l.length

/-- Nearest-point lookup of the single-subject chart: clamp the two
candidate indices into range (Math.max(0, index-1), Math.min(length-1,
index)), pick the closer of the two, preferring the lower-index candidate on
ties; undefined candidates fall through exactly as the JavaScript
conditional (d1 and d0) ? ... : (d0 or d1) does. -/
def locate (l : List Sample) (q : ℚ) : Option Sample :=
  match l.get? (bisectLeft l q - 1), l.get? (min (l.length - 1) (bisectLeft l q)) with
  | some s0, some s1 =>
    some (if q - s0.timestamp > s1.timestamp - q then s1 else s0)
  | some s0, none => some s0
  | none, some s1 => some s1
  | none, none => none

/-- Nearest-point lookup of the multi-series chart tooltip: the candidates
are taken only when 0 < index < length; otherwise the student is skipped
(no point, no tooltip line). -/
def locateFC (l : List Sample) (q : ℚ) : Option Sample :=
  if h : 0 < bisectLeft l q ∧ bisectLeft l q < l.length then
    some
      (if q - (l.get ⟨bisectLeft l q - 1, by omega⟩).timestamp >
          (l.get ⟨bisectLeft l q, h.2⟩).timestamp - q then
        l.get ⟨bisectLeft l q, h.2⟩
      else l.get ⟨bisectLeft l q - 1, by omega⟩)
  else none

/-- A one-sample series used to exercise the tooltip lookup edge case. -/
def oneSample : List Sample := [⟨"S1", 10, 100⟩]

/-- The three-sample scenario series of the specification. -/
def scenarioSeries : List Sample :=
  [⟨"S1", 0, 100⟩, ⟨"S1", 10, 110⟩, ⟨"S1", 20, 90⟩]

/-- A malformed sample: negative bpm, valid subject and timestamp. -/
def badSample : Sample := ⟨"S1", 5, -10⟩

/-- A two-sample data set whose minimum timestamp is 0. -/
def hrZeroStart : List Sample := [⟨"S1", 0, 100⟩, ⟨"S1", 100, 90⟩]

/-- A view state holding a brush-committed window whose start is 0. -/
def stZeroStart : ChartState := ⟨false, (some 0, some 50), "S1"⟩

/-!  Helper lemmas about the embedded components. -/

theorem d3minQ_spec (l : List ℚ) (h : l ≠ []) :
    ∃ m, d3minQ l = some m ∧ m ∈ l ∧ ∀ x ∈ l, m ≤ x := by
  induction l with
  | nil => exact absurd rfl h
  | cons x xs ih =>
    cases hxs : xs with
    | nil =>
      refine ⟨x, by simp [d3minQ], by simp, ?_⟩
      intro y hy
      simp at hy
      simp [hy]
    | cons z zs =>
      obtain ⟨m, hm, hmem, hb⟩ := ih (by simp [hxs])
      subst hxs
      refine ⟨min x m, by rw [d3minQ, hm], ?_, ?_⟩
      · rcases min_choice x m with hc | hc <;> rw [hc]
        · exact List.mem_cons_self _ _
        · exact List.mem_cons_of_mem _ hmem
      · intro y hy
        rcases List.mem_cons.mp hy with rfl | hy
        · exact min_le_left _ _
        · exact le_trans (min_le_right _ _) (hb y hy)

theorem d3maxQ_spec (l : List ℚ) (h : l ≠ []) :
    ∃ m, d3maxQ l = some m ∧ m ∈ l ∧ ∀ x ∈ l, x ≤ m := by
  induction l with
  | nil => exact absurd rfl h
  | cons x xs ih =>
    cases hxs : xs with
    | nil =>
      refine ⟨x, by simp [d3maxQ], by simp, ?_⟩
      intro y hy
      simp at hy
      simp [hy]
    | cons z zs =>
      obtain ⟨m, hm, hmem, hb⟩ := ih (by simp [hxs])
      subst hxs
      refine ⟨max x m, by rw [d3maxQ, hm], ?_, ?_⟩
      · rcases max_choice x m with hc | hc <;> rw [hc]
        · exact List.mem_cons_self _ _
        · exact List.mem_cons_of_mem _ hmem
      · intro y hy
        rcases List.mem_cons.mp hy with rfl | hy
        · exact le_max_left _ _
        · exact le_trans (hb y hy) (le_max_right _ _)

theorem fullExtent_eq (hr : List Sample) (h : hr ≠ []) :
    ∃ m M : ℚ, d3minQ (hr.map fun s => s.timestamp) = some m ∧
      d3maxQ (hr.map fun s => s.timestamp) = some M ∧
      fullExtent hr = (some m, some M) ∧
      ∀ s ∈ hr, m ≤ s.timestamp ∧ s.timestamp ≤ M := by
  have hmap : hr.map (fun s => s.timestamp) ≠ [] := by
    simpa [List.map_eq_nil_iff] using h
  obtain ⟨m, hm, hmmem, hmb⟩ := d3minQ_spec _ hmap
  obtain ⟨M, hM, hMmem, hMb⟩ := d3maxQ_spec _ hmap
  refine ⟨m, M, hm, hM, ?_, ?_⟩
  · unfold fullExtent
    rw [hm, hM]
    rcases eq_or_ne m 0 with hm0 | hm0 <;> rcases eq_or_ne M 0 with hM0 | hM0 <;>
      simp [jsTruthyO, hm0, hM0]
  · intro s hs
    exact ⟨hmb _ (List.mem_map_of_mem _ hs), hMb _ (List.mem_map_of_mem _ hs)⟩

theorem mem_insertByKey {α β : Type} [LinearOrder β] (key : α → β) (a x : α)
    (l : List α) : x ∈ insertByKey key a l ↔ x = a ∨ x ∈ l := by
  induction l with
  | nil => simp [insertByKey]
  | cons b bs ih =>
    by_cases h : key a ≤ key b
    · simp [insertByKey, h]
    · simp [insertByKey, h, ih]
      tauto

theorem sorted_insertByKey {α β : Type} [LinearOrder β] (key : α → β) (a : α)
    (l : List α) (hl : l.Pairwise fun u v => key u ≤ key v) :
    (insertByKey key a l).Pairwise fun u v => key u ≤ key v := by
  induction l with
  | nil => simp [insertByKey]
  | cons b bs ih =>
    rw [List.pairwise_cons] at hl
    by_cases h : key a ≤ key b
    · rw [insertByKey, if_pos h, List.pairwise_cons]
      refine ⟨?_, List.pairwise_cons.mpr hl⟩
      intro x hx
      rcases List.mem_cons.mp hx with rfl | hx
      · exact h
      · exact le_trans h (hl.1 x hx)
    · rw [insertByKey, if_neg h, List.pairwise_cons]
      refine ⟨?_, ih hl.2⟩
      intro x hx
      rcases (mem_insertByKey key a x bs).mp hx with rfl | hx
      · exact le_of_lt (lt_of_not_le h)
      · exact hl.1 x hx

theorem mem_sortByKey {α β : Type} [LinearOrder β] (key : α → β) (x : α)
    (l : List α) : x ∈ sortByKey key l ↔ x ∈ l := by
  induction l with
  | nil => simp [sortByKey]
  | cons a as ih => simp [sortByKey, mem_insertByKey, ih]

theorem sorted_sortByKey {α β : Type} [LinearOrder β] (key : α → β) (l : List α) :
    (sortByKey key l).Pairwise fun u v => key u ≤ key v := by
  induction l with
  | nil => simp [sortByKey]
  | cons a as ih => exact sorted_insertByKey key a _ ih

theorem get_lt_of_pairwise (l : List Sample)
    (hs : l.Pairwise fun u v => u.timestamp < v.timestamp) (i j : Fin l.length)
    (hij : (i : ℕ) < (j : ℕ)) : (l.get i).timestamp < (l.get j).timestamp :=
  (List.pairwise_iff_get.mp hs) i j hij

theorem get_le_of_pairwise (l : List Sample)
    (hs : l.Pairwise fun u v => u.timestamp < v.timestamp) (i j : Fin l.length)
    (hij : (i : ℕ) ≤ (j : ℕ)) : (l.get i).timestamp ≤ (l.get j).timestamp := by
  rcases eq_or_lt_of_le hij with heq | hlt
  · rw [Fin.ext heq]
  · exact le_of_lt (get_lt_of_pairwise l hs i j hlt)

theorem bisectGo_spec (l : List Sample) (q : ℚ)
    (hsort : ∀ i j : Fin l.length, (i : ℕ) < (j : ℕ) →
      (l.get i).timestamp < (l.get j).timestamp) :
    ∀ fuel lo hi, hi ≤ l.length → lo ≤ hi → hi - lo ≤ fuel →
      (∀ i : Fin l.length, (i : ℕ) < lo → (l.get i).timestamp < q) →
      (∀ i : Fin l.length, hi ≤ (i : ℕ) → q ≤ (l.get i).timestamp) →
      lo ≤ bisectGo l q fuel lo hi ∧ bisectGo l q fuel lo hi ≤ hi ∧
        (∀ i : Fin l.length, (i : ℕ) < bisectGo l q fuel lo hi →
          (l.get i).timestamp < q) ∧
        ∀ i : Fin l.length, bisectGo l q fuel lo hi ≤ (i : ℕ) →
          q ≤ (l.get i).timestamp := by
  intro fuel
  induction fuel with
  | zero =>
    intro lo hi hhl hlh hf hinvlo hinvhi
    have hEq : lo = hi := by omega
    subst hEq
    exact ⟨le_refl _, le_refl _, hinvlo, hinvhi⟩
  | succ f ih =>
    intro lo hi hhl hlh hf hinvlo hinvhi
    by_cases hlt : lo < hi
    · have hmidlen : (lo + hi) / 2 < l.length := by omega
      have hget : l.get? ((lo + hi) / 2) = some (l.get ⟨(lo + hi) / 2, hmidlen⟩) :=
        List.get?_eq_get hmidlen
      rw [bisectGo, if_pos hlt, hget]
      dsimp only
      by_cases hmq : (l.get ⟨(lo + hi) / 2, hmidlen⟩).timestamp < q
      · rw [if_pos hmq]
        have hstep := ih ((lo + hi) / 2 + 1) hi hhl (by omega) (by omega) ?_ hinvhi
        · exact ⟨by omega, hstep.2.1, hstep.2.2.1, hstep.2.2.2⟩
        · intro i hilt
          by_cases hilo : (i : ℕ) < lo
          · exact hinvlo i hilo
          · rcases Nat.lt_succ_iff_lt_or_eq.mp hilt with hmid | hmid
            · exact lt_trans (hsort i ⟨(lo + hi) / 2, hmidlen⟩ hmid) hmq
            · have hieq : i = ⟨(lo + hi) / 2, hmidlen⟩ := Fin.ext hmid
              rw [hieq]
              exact hmq
      · rw [if_neg hmq]
        have hstep := ih lo ((lo + hi) / 2) (by omega) (by omega) (by omega) hinvlo ?_
        · exact ⟨hstep.1, by omega, hstep.2.2.1, hstep.2.2.2⟩
        · intro i hige
          rcases eq_or_lt_of_le hige with hmid | hmid
          · have hieq : (⟨(lo + hi) / 2, hmidlen⟩ : Fin l.length) = i := Fin.ext hmid
            rw [← hieq]
            exact le_of_not_lt hmq
          · exact le_trans (le_of_not_lt hmq)
              (le_of_lt (hsort ⟨(lo + hi) / 2, hmidlen⟩ i hmid))
    · have hEq : lo = hi := by omega
      rw [bisectGo, if_neg hlt]
      subst hEq
      exact ⟨le_refl _, le_refl _, hinvlo, hinvhi⟩

theorem bisectLeft_spec (l : List Sample) (q : ℚ)
    (hs : l.Pairwise fun u v => u.timestamp < v.timestamp) :
    bisectLeft l q ≤ l.length ∧
      (∀ i : Fin l.length, (i : ℕ) < bisectLeft l q → (l.get i).timestamp < q) ∧
      ∀ i : Fin l.length, bisectLeft l q ≤ (i : ℕ) → q ≤ (l.get i).timestamp := by
  have hstep := bisectGo_spec l q (get_lt_of_pairwise l hs) l.length 0 l.length
    (le_refl _) (Nat.zero_le _) (by omega)
    (by intro i h; omega)
    (by intro i h; have := i.isLt; omega)
  exact ⟨hstep.2.1, hstep.2.2.1, hstep.2.2.2⟩

theorem abs_q_sub_of_le {q t : ℚ} (h : q ≤ t) : |q - t| = t - q := by
  rw [abs_sub_comm]
  exact abs_of_nonneg (by linarith)

theorem abs_q_sub_of_ge {q t : ℚ} (h : t ≤ q) : |q - t| = q - t :=
  abs_of_nonneg (by linarith)

theorem locate_reduce (l : List Sample) (q : ℚ)
    (hi0 : bisectLeft l q - 1 < l.length)
    (hi1 : min (l.length - 1) (bisectLeft l q) < l.length) :
    locate l q =
      some
        (if q - (l.get ⟨bisectLeft l q - 1, hi0⟩).timestamp >
            (l.get ⟨min (l.length - 1) (bisectLeft l q), hi1⟩).timestamp - q then
          l.get ⟨min (l.length - 1) (bisectLeft l q), hi1⟩
        else l.get ⟨bisectLeft l q - 1, hi0⟩) := by
  unfold locate
  rw [List.get?_eq_get hi0, List.get?_eq_get hi1]

/-- C1 (amended): for the single-subject nearest-point lookup, on a series
with strictly increasing timestamps the lookup returns none exactly when the
series is empty, and any returned sample belongs to the series and minimizes
the absolute time distance to the query, with ties resolved toward the
earlier (smaller-timestamp) sample. -/
theorem locate_nearest_amended (l : List Sample) (q : ℚ)
    (hs : l.Pairwise fun u v => u.timestamp < v.timestamp) :
    (locate l q = none ↔ l = []) ∧
      ∀ d : Sample, locate l q = some d → d ∈ l ∧
        ∀ e ∈ l, |q - d.timestamp| < |q - e.timestamp| ∨
          (|q - d.timestamp| = |q - e.timestamp| ∧ d.timestamp ≤ e.timestamp) := by
  by_cases hl : l = []
  · subst hl
    refine ⟨⟨fun _ => rfl, fun _ => rfl⟩, ?_⟩
    intro d hd
    exact Option.noConfusion hd
  · have hlen : 0 < l.length := List.length_pos.mpr hl
    obtain ⟨hk1, hfact0, hfact1⟩ := bisectLeft_spec l q hs
    have hi0 : bisectLeft l q - 1 < l.length := by omega
    have hi1 : min (l.length - 1) (bisectLeft l q) < l.length := by omega
    have hloc := locate_reduce l q hi0 hi1
    refine ⟨⟨fun hnone => absurd (hloc ▸ hnone) (by simp), fun heq => absurd heq hl⟩, ?_⟩
    intro d hd
    rw [hloc] at hd
    injection hd with hd
    subst hd
    constructor
    · split <;> exact List.get_mem l _ _
    · intro e he
      obtain ⟨n, rfl⟩ := List.mem_iff_get.mp he
      rcases Nat.eq_zero_or_pos (bisectLeft l q) with hk0 | hkpos
      · -- insertion index 0: the query is at or before every timestamp
        have e0 : (⟨bisectLeft l q - 1, hi0⟩ : Fin l.length) = ⟨0, hlen⟩ := by
          apply Fin.ext
          show bisectLeft l q - 1 = 0
          omega
        have e1 : (⟨min (l.length - 1) (bisectLeft l q), hi1⟩ : Fin l.length) =
            ⟨0, hlen⟩ := by
          apply Fin.ext
          show min (l.length - 1) (bisectLeft l q) = 0
          omega
        rw [e0, e1, ite_self]
        have hq0 : q ≤ (l.get ⟨0, hlen⟩).timestamp := by
          apply hfact1
          show bisectLeft l q ≤ 0
          omega
        have hmono : (l.get ⟨0, hlen⟩).timestamp ≤ (l.get n).timestamp := by
          apply get_le_of_pairwise l hs
          show 0 ≤ (n : ℕ)
          omega
        rw [abs_q_sub_of_le hq0, abs_q_sub_of_le (le_trans hq0 hmono)]
        rcases lt_or_eq_of_le hmono with hlt2 | heq2
        · left
          linarith
        · right
          exact ⟨by rw [heq2], by rw [heq2]⟩
      · rcases eq_or_lt_of_le hk1 with hkE | hklt
        · -- insertion index at the end: the query is after every timestamp
          have hL : l.length - 1 < l.length := by omega
          have e0 : (⟨bisectLeft l q - 1, hi0⟩ : Fin l.length) = ⟨l.length - 1, hL⟩ := by
            apply Fin.ext
            show bisectLeft l q - 1 = l.length - 1
            omega
          have e1 : (⟨min (l.length - 1) (bisectLeft l q), hi1⟩ : Fin l.length) =
              ⟨l.length - 1, hL⟩ := by
            apply Fin.ext
            show min (l.length - 1) (bisectLeft l q) = l.length - 1
            omega
          rw [e0, e1, ite_self]
          have hqL : (l.get ⟨l.length - 1, hL⟩).timestamp < q := by
            apply hfact0
            show l.length - 1 < bisectLeft l q
            omega
          have hmono : (l.get n).timestamp ≤ (l.get ⟨l.length - 1, hL⟩).timestamp := by
            apply get_le_of_pairwise l hs
            show (n : ℕ) ≤ l.length - 1
            have := n.isLt
            omega
          rw [abs_q_sub_of_ge (le_of_lt hqL),
            abs_q_sub_of_ge (le_trans hmono (le_of_lt hqL))]
          rcases lt_or_eq_of_le hmono with hlt2 | heq2
          · left
            linarith
          · right
            exact ⟨by rw [heq2], by rw [heq2]⟩
        · -- interior insertion index: compare the two neighbors
          have e1 : (⟨min (l.length - 1) (bisectLeft l q), hi1⟩ : Fin l.length) =
              ⟨bisectLeft l q, hklt⟩ := by
            apply Fin.ext
            show min (l.length - 1) (bisectLeft l q) = bisectLeft l q
            omega
          rw [e1]
          have h0 : (l.get ⟨bisectLeft l q - 1, hi0⟩).timestamp < q := by
            apply hfact0
            show bisectLeft l q - 1 < bisectLeft l q
            omega
          have h1 : q ≤ (l.get ⟨bisectLeft l q, hklt⟩).timestamp := by
            apply hfact1
            show bisectLeft l q ≤ bisectLeft l q
            omega
          by_cases hcond : q - (l.get ⟨bisectLeft l q - 1, hi0⟩).timestamp >
              (l.get ⟨bisectLeft l q, hklt⟩).timestamp - q
          · rw [if_pos hcond, abs_q_sub_of_le h1]
            rcases lt_or_ge (n : ℕ) (bisectLeft l q) with hnk | hnk
            · have htn : (l.get n).timestamp ≤
                  (l.get ⟨bisectLeft l q - 1, hi0⟩).timestamp := by
                apply get_le_of_pairwise l hs
                show (n : ℕ) ≤ bisectLeft l q - 1
                omega
              rw [abs_q_sub_of_ge (by linarith)]
              left
              linarith
            · have htn : (l.get ⟨bisectLeft l q, hklt⟩).timestamp ≤
                  (l.get n).timestamp := by
                apply get_le_of_pairwise l hs
                show bisectLeft l q ≤ (n : ℕ)
                omega
              rw [abs_q_sub_of_le (le_trans h1 htn)]
              rcases lt_or_eq_of_le htn with hlt2 | heq2
              · left
                linarith
              · right
                exact ⟨by rw [heq2], by rw [heq2]⟩
          · rw [if_neg hcond, abs_q_sub_of_ge (le_of_lt h0)]
            have hcond2 : q - (l.get ⟨bisectLeft l q - 1, hi0⟩).timestamp ≤
                (l.get ⟨bisectLeft l q, hklt⟩).timestamp - q := le_of_not_lt hcond
            rcases lt_or_ge (n : ℕ) (bisectLeft l q) with hnk | hnk
            · have htn : (l.get n).timestamp ≤
                  (l.get ⟨bisectLeft l q - 1, hi0⟩).timestamp := by
                apply get_le_of_pairwise l hs
                show (n : ℕ) ≤ bisectLeft l q - 1
                omega
              rw [abs_q_sub_of_ge (by linarith)]
              rcases lt_or_eq_of_le htn with hlt2 | heq2
              · left
                linarith
              · right
                exact ⟨by rw [heq2], by rw [heq2]⟩
            · have htn : (l.get ⟨bisectLeft l q, hklt⟩).timestamp ≤
                  (l.get n).timestamp := by
                apply get_le_of_pairwise l hs
                show bisectLeft l q ≤ (n : ℕ)
                omega
              rw [abs_q_sub_of_le (le_trans h1 htn)]
              have hchain : q - (l.get ⟨bisectLeft l q - 1, hi0⟩).timestamp ≤
                  (l.get n).timestamp - q := by linarith
              rcases lt_or_eq_of_le hchain with hlt2 | heq2
              · left
                exact hlt2
              · right
                exact ⟨heq2, by linarith⟩

/-- C1 witness: on the specification scenario series, the single-subject
lookup at query 9 enjoys the proved nearest-point property (the hypothesis
that the filtered series is strictly sorted holds there). -/
theorem locate_nearest_amended_witness :
    (List.Pairwise (fun u v => u.timestamp < v.timestamp) scenarioSeries) ∧
      ((locate scenarioSeries 9 = none ↔ scenarioSeries = []) ∧
        ∀ d : Sample, locate scenarioSeries 9 = some d → d ∈ scenarioSeries ∧
          ∀ e ∈ scenarioSeries, |9 - d.timestamp| < |9 - e.timestamp| ∨
            (|9 - d.timestamp| = |9 - e.timestamp| ∧ d.timestamp ≤ e.timestamp)) :=
  ⟨by decide, locate_nearest_amended scenarioSeries 9 (by decide)⟩

/-- C1 counterexample: the multi-series tooltip lookup returns none on a
non-empty series when the query timestamp lies before the first sample
(insertion index 0), so locate does not return none only on empty series. -/
theorem locateFC_none_on_nonempty :
    locateFC oneSample 5 = none ∧ oneSample ≠ [] := by
  decide

/-- C4: the sample filter keeps exactly the samples whose subject is in the
selection and whose timestamp lies in the committed window, and every
per-subject series handed to rendering and search is sorted ascending by
timestamp and consists exactly of the filtered samples of that subject. -/
theorem sampleFilter_spec (hr : List Sample) (sel : List String) (a b : ℚ) :
    (∀ x : Sample, x ∈ filteredData hr sel (some a, some b) ↔
      x ∈ hr ∧ sel.contains x.student = true ∧ a ≤ x.timestamp ∧ x.timestamp ≤ b) ∧
    (∀ s : String, (studentSeries hr sel (some a, some b) s).Pairwise
      fun u v => u.timestamp ≤ v.timestamp) ∧
    ∀ s : String, ∀ x : Sample, x ∈ studentSeries hr sel (some a, some b) s ↔
      x ∈ filteredData hr sel (some a, some b) ∧ x.student = s := by
  refine ⟨?_, ?_, ?_⟩
  · intro x
    simp only [filteredData, List.mem_filter, Bool.and_eq_true, decide_eq_true_eq,
      Option.getD_some]
    tauto
  · intro s
    exact sorted_sortByKey _ _
  · intro s x
    rw [studentSeries, mem_sortByKey, List.mem_filter]
    simp only [beq_iff_eq]

/-- C5 counterexample: a sample with negative bpm whose subject is selected
and whose timestamp is in the window is kept by the filter, not excluded. -/
theorem negative_bpm_not_excluded :
    badSample ∈ filteredData [badSample] ["S1"] (some 0, some 10) ∧
      badSample.value < 0 := by
  decide

/-- C5 (amended): the filter tests only subject membership and time-window
membership; any sample passing those two tests is retained in the filtered
output regardless of its bpm value, so malformed (for instance negative)
bpm values are propagated rather than excluded. -/
theorem filter_membership_only_amended (hr : List Sample) (sel : List String)
    (a b : ℚ) (s : Sample) (hmem : s ∈ hr) (hsel : sel.contains s.student = true)
    (h1 : a ≤ s.timestamp) (h2 : s.timestamp ≤ b) :
    s ∈ filteredData hr sel (some a, some b) := by
  rw [filteredData, List.mem_filter]
  refine ⟨hmem, ?_⟩
  simp only [Bool.and_eq_true, decide_eq_true_eq, Option.getD_some]
  exact ⟨⟨hsel, h1⟩, h2⟩

/-- C5 witness: the amended filter theorem applied to a concrete sample with
negative bpm, selected subject and in-window timestamp. -/
theorem filter_membership_only_amended_witness :
    ((⟨"S2", 3, -7⟩ : Sample) ∈ [(⟨"S2", 3, -7⟩ : Sample)] ∧
      (["S2"].contains (⟨"S2", 3, -7⟩ : Sample).student = true) ∧
      (1 : ℚ) ≤ (⟨"S2", 3, -7⟩ : Sample).timestamp ∧
      (⟨"S2", 3, -7⟩ : Sample).timestamp ≤ (4 : ℚ)) ∧
    (⟨"S2", 3, -7⟩ : Sample) ∈ filteredData [⟨"S2", 3, -7⟩] ["S2"] (some 1, some 4) :=
  ⟨⟨by decide, by decide, by decide, by decide⟩,
    filter_membership_only_amended [⟨"S2", 3, -7⟩] ["S2"] 1 4 ⟨"S2", 3, -7⟩
      (by decide) (by decide) (by decide) (by decide)⟩

/-- C6: for any non-empty loaded sample set, resetZoom overwrites the window
with the minimum and maximum timestamp over all loaded samples, for every
current window (the handler reads neither the window nor the selection). -/
theorem resetZoom_full_extent (hr : List Sample) (h1 : hr ≠ []) :
    ∃ m M : ℚ, d3minQ (hr.map fun s => s.timestamp) = some m ∧
      d3maxQ (hr.map fun s => s.timestamp) = some M ∧
      (∀ tr : Option ℚ × Option ℚ, resetZoom hr tr = (some m, some M)) ∧
      ∀ s ∈ hr, m ≤ s.timestamp ∧ s.timestamp ≤ M := by
  obtain ⟨m, M, hm, hM, hfe, hb⟩ := fullExtent_eq hr h1
  exact ⟨m, M, hm, hM, fun tr => hfe, hb⟩

/-- C6 witness: resetZoom on a concrete two-sample data set restores the
full extent for every current window. -/
theorem resetZoom_full_extent_witness :
    hrZeroStart ≠ [] ∧
      ∃ m M : ℚ, d3minQ (hrZeroStart.map fun s => s.timestamp) = some m ∧
        d3maxQ (hrZeroStart.map fun s => s.timestamp) = some M ∧
        (∀ tr : Option ℚ × Option ℚ, resetZoom hrZeroStart tr = (some m, some M)) ∧
        ∀ s ∈ hrZeroStart, m ≤ s.timestamp ∧ s.timestamp ≤ M :=
  ⟨by decide, resetZoom_full_extent hrZeroStart (by decide)⟩

/-- C10: when a window bound is unset or 0 (JavaScript falsy), the next
recompute re-initializes the window to the full extent of all loaded
samples; in particular a brush-committed window whose start is 0 is replaced
by the full extent on the following recompute. -/
theorem recompute_zero_bound_reinit (hr : List Sample) (tr : Option ℚ × Option ℚ)
    (h1 : hr ≠ []) (h2 : jsTruthyO tr.1 = false ∨ jsTruthyO tr.2 = false) :
    ∃ m M : ℚ, d3minQ (hr.map fun s => s.timestamp) = some m ∧
      d3maxQ (hr.map fun s => s.timestamp) = some M ∧
      initTimeRange hr tr = (some m, some M) ∧
      ∀ s ∈ hr, m ≤ s.timestamp ∧ s.timestamp ≤ M := by
  obtain ⟨m, M, hm, hM, hfe, hb⟩ := fullExtent_eq hr h1
  refine ⟨m, M, hm, hM, ?_, hb⟩
  rw [initTimeRange, if_pos h2]
  exact hfe

/-- C10 witness: a committed window with start 0 is discarded on the next
recompute, which re-initializes to the full extent of the loaded samples. -/
theorem recompute_zero_bound_reinit_witness :
    (hrZeroStart ≠ [] ∧
      (jsTruthyO (some (0 : ℚ), some (5 : ℚ)).1 = false ∨
        jsTruthyO (some (0 : ℚ), some (5 : ℚ)).2 = false)) ∧
      ∃ m M : ℚ, d3minQ (hrZeroStart.map fun s => s.timestamp) = some m ∧
        d3maxQ (hrZeroStart.map fun s => s.timestamp) = some M ∧
        initTimeRange hrZeroStart (some (0 : ℚ), some (5 : ℚ)) = (some m, some M) ∧
        ∀ s ∈ hrZeroStart, m ≤ s.timestamp ∧ s.timestamp ≤ M :=
  ⟨⟨by decide, by decide⟩,
    recompute_zero_bound_reinit hrZeroStart (some 0, some 5) (by decide) (by decide)⟩

/-- C9 counterexample: toggling the average overlay from a state whose
committed window starts at 0 changes the TimeWindow: the recompute
re-initializes it to the full extent, so the window end jumps from 50 to
100. -/
theorem toggleAverage_resets_window_at_zero_start :
    toggleAverage hrZeroStart stZeroStart = ⟨true, (some 0, some 100), "S1"⟩ ∧
      (toggleAverage hrZeroStart stZeroStart).timeRange ≠ stZeroStart.timeRange := by
  decide

/-- C9 (amended): toggling the average overlay flips only the showAverage
flag and never changes the subject selection; the TimeWindow is also
unchanged provided both committed bounds are set and nonzero (otherwise the
triggered recompute re-initializes the window to the full extent). -/
theorem toggleAverage_amended (hr : List Sample) (st : ChartState)
    (h1 : jsTruthyO st.timeRange.1 = true) (h2 : jsTruthyO st.timeRange.2 = true) :
    toggleAverage hr st =
      { showAverage := !st.showAverage
        timeRange := st.timeRange
        studentId := st.studentId } := by
  rw [toggleAverage, initTimeRange, if_neg]
  simp [h1, h2]

/-- C9 witness: the amended toggle theorem at a concrete state whose window
bounds are both set and nonzero. -/
theorem toggleAverage_amended_witness :
    (jsTruthyO ((⟨false, (some 10, some 50), "S3"⟩ : ChartState)).timeRange.1 = true ∧
      jsTruthyO ((⟨false, (some 10, some 50), "S3"⟩ : ChartState)).timeRange.2 = true) ∧
      toggleAverage hrZeroStart ⟨false, (some 10, some 50), "S3"⟩ =
        ⟨true, (some 10, some 50), "S3"⟩ :=
  ⟨⟨by decide, by decide⟩,
    toggleAverage_amended hrZeroStart ⟨false, (some 10, some 50), "S3"⟩
      (by decide) (by decide)⟩

/-- C3 counterexample: toggling S10 and then S2 yields the selection
[S10, S2], and the legend lists S10 before S2 with their stable colors, while
the numerically ascending order would be [S2, S10]; selection order leaks
into the legend. -/
theorem legend_order_follows_selection_order :
    legendItems (toggleStudentSelection "S2" (toggleStudentSelection "S10" [])) =
      [("S10", "#2EC4B6"), ("S2", "#3A0CA3")] ∧
    sortStudentIds ["S10", "S2"] = ["S2", "S10"] ∧
    (["S10", "S2"] : List String) ≠ ["S2", "S10"] := by
  decide

/-- C3 (amended): the legend lists the currently selected subjects in
selection order, each with its stable assigned color; the listing is in
ascending numeric id order whenever the selection was produced by the
numerically sorting select-all action. -/
theorem legend_amended :
    (∀ sel : List String, (legendItems sel).map Prod.fst = sel) ∧
    (∀ sel : List String, ∀ s ∈ sel, (s, colorOf s) ∈ legendItems sel) ∧
    ∀ hr : List Sample, ((legendItems (selectAllStudents hr)).map Prod.fst).Pairwise
      fun u v => studentKey u ≤ studentKey v := by
  have hmap : ∀ sel : List String, (legendItems sel).map Prod.fst = sel := by
    intro sel
    induction sel with
    | nil => rfl
    | cons s ss ih =>
      show s :: (legendItems ss).map Prod.fst = s :: ss
      rw [ih]
  refine ⟨hmap, ?_, ?_⟩
  · intro sel s hsmem
    rw [legendItems]
    exact List.mem_map_of_mem _ hsmem
  · intro hr
    rw [hmap, selectAllStudents, sortStudentIds]
    exact sorted_sortByKey studentKey _

/-- C3 witness: the legend construction applied at a concrete selection,
through the amended theorem. -/
theorem legend_amended_witness :
    ("S10" ∈ (["S10", "S2"] : List String)) ∧
      ("S10", colorOf "S10") ∈ legendItems ["S10", "S2"] :=
  ⟨by decide, legend_amended.2.1 ["S10", "S2"] "S10" (by decide)⟩

/-- C2 counterexample: a one-pixel drag (selection from pixel 100 to pixel
101, distance 1 < 2) is committed by the brush handler: with current window
[0, 620] it produces the new window [20, 21] instead of leaving the window
unchanged. -/
theorem brushed_commits_small_drag :
    brushedStep cfg800 ⟨0, 620⟩ (some (100, 101)) = ⟨20, 21⟩ ∧
      (⟨20, 21⟩ : TimeWindow) ≠ ⟨0, 620⟩ ∧ |(101 : ℚ) - 100| < 2 := by
  refine ⟨?_, by decide, by norm_num⟩
  show (⟨timeOfPixel cfg800 ⟨0, 620⟩ 100, timeOfPixel cfg800 ⟨0, 620⟩ 101⟩ :
    TimeWindow) = ⟨20, 21⟩
  rw [TimeWindow.mk.injEq]
  constructor <;>
    · simp only [timeOfPixel, xScaleInvertMs, cfg800]
      norm_num

/-- C2 (amended): a drag whose released selection is null leaves the window
unchanged; a drag released with any non-null selection (a, b) delivered
low-to-high commits the window (time(min(a,b)), time(max(a,b))), which by
monotonicity of the inverse scale equals (min(time(a), time(b)),
max(time(a), time(b))), regardless of the pixel distance. -/
theorem brushed_amended (cur : TimeWindow) (a b : ℚ) (h : cur.start < cur.endT) :
    brushedStep cfg800 cur none = cur ∧
    brushedStep cfg800 cur (some (min a b, max a b)) =
      ⟨min (timeOfPixel cfg800 cur a) (timeOfPixel cfg800 cur b),
        max (timeOfPixel cfg800 cur a) (timeOfPixel cfg800 cur b)⟩ := by
  have hmono : Monotone (timeOfPixel cfg800 cur) := by
    intro x y hxy
    have hd : (0 : ℚ) ≤ (y - x) * (cur.endT * 1000 - cur.start * 1000) / 620000 :=
      div_nonneg (mul_nonneg (by linarith) (by linarith)) (by norm_num)
    have heq : timeOfPixel cfg800 cur y - timeOfPixel cfg800 cur x =
        (y - x) * (cur.endT * 1000 - cur.start * 1000) / 620000 := by
      simp only [timeOfPixel, xScaleInvertMs, cfg800]
      ring
    linarith
  refine ⟨rfl, ?_⟩
  show (⟨timeOfPixel cfg800 cur (min a b), timeOfPixel cfg800 cur (max a b)⟩ :
    TimeWindow) = _
  rw [hmono.map_min, hmono.map_max]

/-- C2 witness: the amended brush theorem at a concrete window and a
concrete right-to-left drag. -/
theorem brushed_amended_witness :
    ((⟨0, 620⟩ : TimeWindow).start < (⟨0, 620⟩ : TimeWindow).endT) ∧
      (brushedStep cfg800 ⟨0, 620⟩ none = ⟨0, 620⟩ ∧
        brushedStep cfg800 ⟨0, 620⟩ (some (min 700 80, max 700 80)) =
          ⟨min (timeOfPixel cfg800 ⟨0, 620⟩ 700) (timeOfPixel cfg800 ⟨0, 620⟩ 80),
            max (timeOfPixel cfg800 ⟨0, 620⟩ 700) (timeOfPixel cfg800 ⟨0, 620⟩ 80)⟩) :=
  ⟨by decide, brushed_amended ⟨0, 620⟩ 700 80 (by decide)⟩

/-- C8: for every window with start < end and every pixel in the chart area,
inverting the time scale and mapping back reproduces the pixel within one
pixel of tolerance (in the rational model the round trip is exact). -/
theorem xScale_roundtrip (w : TimeWindow) (x : ℚ) (h1 : w.start < w.endT)
    (h2 : cfg800.left ≤ x) (h3 : x ≤ cfg800.width - cfg800.right) :
    |xScaleMs cfg800 w (xScaleInvertMs cfg800 w x) - x| ≤ 1 := by
  have hne : w.endT * 1000 - w.start * 1000 ≠ 0 := by
    have : (0 : ℚ) < w.endT * 1000 - w.start * 1000 := by linarith
    exact ne_of_gt this
  have heq : xScaleMs cfg800 w (xScaleInvertMs cfg800 w x) = x := by
    rw [xScaleMs, scaleLinearAt, if_neg hne, xScaleInvertMs]
    simp only [cfg800]
    field_simp
    ring
  rw [heq, sub_self, abs_zero]
  norm_num

/-- C8 witness: the round-trip theorem at the concrete window [0, 620] and
pixel 100. -/
theorem xScale_roundtrip_witness :
    ((⟨0, 620⟩ : TimeWindow).start < (⟨0, 620⟩ : TimeWindow).endT ∧
      cfg800.left ≤ (100 : ℚ) ∧ (100 : ℚ) ≤ cfg800.width - cfg800.right) ∧
      |xScaleMs cfg800 ⟨0, 620⟩ (xScaleInvertMs cfg800 ⟨0, 620⟩ 100) - 100| ≤ 1 :=
  ⟨⟨by decide, by norm_num [cfg800], by norm_num [cfg800]⟩,
    xScale_roundtrip ⟨0, 620⟩ 100 (by decide) (by norm_num [cfg800])
      (by norm_num [cfg800])⟩

theorem qpowN_pos (n : ℕ) : 0 < qpowN 10 n := by
  induction n with
  | zero => norm_num [qpowN]
  | succ k ih =>
    rw [qpowN]
    exact mul_pos (by norm_num) ih

theorem qpow10_pos (z : ℤ) : 0 < qpow10 z := by
  cases z with
  | ofNat n => exact qpowN_pos n
  | negSucc n => exact inv_pos.mpr (qpowN_pos (n + 1))

theorem qpow10_inv_of_negSucc (n : ℕ) :
    (qpow10 (-(Int.negSucc n)))⁻¹ = qpow10 (Int.negSucc n) := rfl

theorem isNiceInc_mul (F : ℚ) (hF : F = 1 ∨ F = 2 ∨ F = 5 ∨ F = 10) (z : ℤ) :
    IsNiceInc (F * qpow10 z) := by
  rcases hF with rfl | rfl | rfl | rfl
  · exact ⟨by simpa using qpow10_pos z, z, Or.inl (one_mul _)⟩
  · exact ⟨mul_pos (by norm_num) (qpow10_pos z), z, Or.inr (Or.inl rfl)⟩
  · exact ⟨mul_pos (by norm_num) (qpow10_pos z), z, Or.inr (Or.inr (Or.inl rfl))⟩
  · exact ⟨mul_pos (by norm_num) (qpow10_pos z), z, Or.inr (Or.inr (Or.inr rfl))⟩

theorem tickFactor_cases (e : ℚ) :
    tickFactor e = 1 ∨ tickFactor e = 2 ∨ tickFactor e = 5 ∨ tickFactor e = 10 := by
  rw [tickFactor]
  split_ifs <;> tauto

theorem tickFactor_pos (e : ℚ) : 0 < tickFactor e := by
  rw [tickFactor]
  split_ifs <;> norm_num

theorem tick_branch_cases (e : ℚ) (P : ℤ) :
    (0 < (if 0 ≤ P then tickFactor e * qpow10 P else -(qpow10 (-P)) / tickFactor e) ∧
      IsNiceInc (if 0 ≤ P then tickFactor e * qpow10 P
        else -(qpow10 (-P)) / tickFactor e)) ∨
    ((if 0 ≤ P then tickFactor e * qpow10 P else -(qpow10 (-P)) / tickFactor e) < 0 ∧
      IsNiceInc (-(if 0 ≤ P then tickFactor e * qpow10 P
        else -(qpow10 (-P)) / tickFactor e)⁻¹)) := by
  by_cases hp : 0 ≤ P
  · rw [if_pos hp]
    exact Or.inl ⟨mul_pos (tickFactor_pos e) (qpow10_pos P),
      isNiceInc_mul _ (tickFactor_cases e) P⟩
  · rw [if_neg hp]
    have hApos := qpow10_pos (-P)
    refine Or.inr ⟨div_neg_of_neg_of_pos (by linarith) (tickFactor_pos e), ?_⟩
    have hkey : -(-(qpow10 (-P)) / tickFactor e)⁻¹ = tickFactor e * (qpow10 (-P))⁻¹ := by
      have hA : qpow10 (-P) ≠ 0 := ne_of_gt hApos
      have hF : tickFactor e ≠ 0 := ne_of_gt (tickFactor_pos e)
      field_simp
    rw [hkey]
    have hinv : (qpow10 (-P))⁻¹ = qpow10 P := by
      cases hz : P with
      | ofNat n =>
        rw [hz] at hp
        exact absurd (Int.ofNat_nonneg n) hp
      | negSucc n => exact qpow10_inv_of_negSucc n
    rw [hinv]
    exact isNiceInc_mul _ (tickFactor_cases e) P

theorem tick_cases (s0 s1 c : ℚ) :
    tickIncrementQ s0 s1 c = 0 ∨
      (0 < tickIncrementQ s0 s1 c ∧ IsNiceInc (tickIncrementQ s0 s1 c)) ∨
      (tickIncrementQ s0 s1 c < 0 ∧ IsNiceInc (-(tickIncrementQ s0 s1 c)⁻¹)) := by
  simp only [tickIncrementQ]
  by_cases h1 : 0 < (s1 - s0) / c
  · rw [if_pos h1]
    exact Or.inr (tick_branch_cases _ _)
  · rw [if_neg h1]
    exact Or.inl rfl

theorem tick_ne_zero (s0 s1 c : ℚ) (h : 0 < (s1 - s0) / c) :
    tickIncrementQ s0 s1 c ≠ 0 := by
  simp only [tickIncrementQ]
  rw [if_pos h]
  rcases tick_branch_cases (((s1 - s0) / c) / qpow10 (ratLog10 ((s1 - s0) / c)))
    (ratLog10 ((s1 - s0) / c)) with ⟨hpos, _⟩ | ⟨hneg, _⟩
  · exact ne_of_gt hpos
  · exact ne_of_lt hneg

theorem niceLoop_stop (f : ℕ) (ps : Option ℚ) (a b : ℚ)
    (h : tickIncrementQ a b 10 = 0) : niceLoop f ps a b = (a, b) := by
  cases f with
  | zero => rfl
  | succ g =>
    simp only [niceLoop]
    rw [if_pos (Or.inr h)]

theorem floor_mul_le (a step : ℚ) (h : 0 < step) : (⌊a / step⌋ : ℚ) * step ≤ a := by
  have h1 : (⌊a / step⌋ : ℚ) ≤ a / step := Int.floor_le _
  calc (⌊a / step⌋ : ℚ) * step ≤ (a / step) * step :=
        mul_le_mul_of_nonneg_right h1 (le_of_lt h)
    _ = a := div_mul_cancel₀ a (ne_of_gt h)

theorem le_ceil_mul (b step : ℚ) (h : 0 < step) : b ≤ (⌈b / step⌉ : ℚ) * step := by
  have h1 : b / step ≤ (⌈b / step⌉ : ℚ) := Int.le_ceil _
  calc b = (b / step) * step := (div_mul_cancel₀ b (ne_of_gt h)).symm
    _ ≤ (⌈b / step⌉ : ℚ) * step := mul_le_mul_of_nonneg_right h1 (le_of_lt h)

theorem ceil_div_le_of_neg (a step : ℚ) (h : step < 0) : (⌈a * step⌉ : ℚ) / step ≤ a := by
  rw [div_le_iff_of_neg h]
  exact Int.le_ceil _

theorem le_floor_div_of_neg (b step : ℚ) (h : step < 0) : b ≤ (⌊b * step⌋ : ℚ) / step := by
  rw [le_div_iff_of_neg h]
  exact Int.floor_le _

theorem niceLoop_le (f : ℕ) :
    ∀ ps : Option ℚ, ∀ a b : ℚ,
      (niceLoop f ps a b).1 ≤ a ∧ b ≤ (niceLoop f ps a b).2 := by
  induction f with
  | zero =>
    intro ps a b
    exact ⟨le_refl _, le_refl _⟩
  | succ g ih =>
    intro ps a b
    simp only [niceLoop]
    split_ifs with hret hpos
    · exact ⟨le_refl _, le_refl _⟩
    · refine ⟨le_trans (ih _ _ _).1 (floor_mul_le a _ hpos),
        le_trans (le_ceil_mul b _ hpos) (ih _ _ _).2⟩
    · have hneg : tickIncrementQ a b 10 < 0 := by
        rcases lt_trichotomy (tickIncrementQ a b 10) 0 with h | h | h
        · exact h
        · exact absurd (Or.inr h) hret
        · exact absurd h hpos
      refine ⟨le_trans (ih _ _ _).1 (ceil_div_le_of_neg a _ hneg),
        le_trans (le_floor_div_of_neg b _ hneg) (ih _ _ _).2⟩

theorem niceLoop_nicePair (f : ℕ) :
    ∀ ps : Option ℚ, ∀ a b : ℚ, NicePair a b →
      NicePair (niceLoop f ps a b).1 (niceLoop f ps a b).2 := by
  induction f with
  | zero =>
    intro ps a b h
    exact h
  | succ g ih =>
    intro ps a b h
    simp only [niceLoop]
    split_ifs with hret hpos
    · exact h
    · apply ih
      rcases tick_cases a b 10 with h0 | ⟨_, hni⟩ | ⟨hneg, _⟩
      · exact absurd (Or.inr h0) hret
      · exact ⟨tickIncrementQ a b 10, hni, ⟨⌊a / tickIncrementQ a b 10⌋, rfl⟩,
          ⟨⌈b / tickIncrementQ a b 10⌉, rfl⟩⟩
      · exact absurd hpos (not_lt.mpr (le_of_lt hneg))
    · apply ih
      have hneg : tickIncrementQ a b 10 < 0 := by
        rcases lt_trichotomy (tickIncrementQ a b 10) 0 with h2 | h2 | h2
        · exact h2
        · exact absurd (Or.inr h2) hret
        · exact absurd h2 hpos
      rcases tick_cases a b 10 with h0 | ⟨hpos2, _⟩ | ⟨_, hni⟩
      · exact absurd (Or.inr h0) hret
      · exact absurd hpos2 (not_lt.mpr (le_of_lt hneg))
      · refine ⟨-(tickIncrementQ a b 10)⁻¹, hni, ⟨-⌈a * tickIncrementQ a b 10⌉, ?_⟩,
          ⟨-⌊b * tickIncrementQ a b 10⌋, ?_⟩⟩
        · push_cast
          ring
        · push_cast
          ring

theorem niceLoop_first (a b : ℚ) (hab : a < b) (f : ℕ) :
    NicePair (niceLoop (f + 1) none a b).1 (niceLoop (f + 1) none a b).2 := by
  have hstepraw : 0 < (b - a) / 10 := by
    have : (0 : ℚ) < b - a := by linarith
    positivity
  have hne : tickIncrementQ a b 10 ≠ 0 := tick_ne_zero a b 10 hstepraw
  simp only [niceLoop]
  rw [if_neg (by simp [hne])]
  split_ifs with hpos
  · apply niceLoop_nicePair
    rcases tick_cases a b 10 with h0 | ⟨_, hni⟩ | ⟨hneg, _⟩
    · exact absurd h0 hne
    · exact ⟨tickIncrementQ a b 10, hni, ⟨⌊a / tickIncrementQ a b 10⌋, rfl⟩,
        ⟨⌈b / tickIncrementQ a b 10⌉, rfl⟩⟩
    · exact absurd hpos (not_lt.mpr (le_of_lt hneg))
  · apply niceLoop_nicePair
    have hneg : tickIncrementQ a b 10 < 0 :=
      lt_of_le_of_ne (le_of_not_lt hpos) hne
    rcases tick_cases a b 10 with h0 | ⟨hpos2, _⟩ | ⟨_, hni⟩
    · exact absurd h0 hne
    · exact absurd hpos2 (not_lt.mpr (le_of_lt hneg))
    · refine ⟨-(tickIncrementQ a b 10)⁻¹, hni, ⟨-⌈a * tickIncrementQ a b 10⌉, ?_⟩,
        ⟨-⌊b * tickIncrementQ a b 10⌋, ?_⟩⟩
      · push_cast
        ring
      · push_cast
        ring

theorem niceDomain_le (a b : ℚ) :
    (niceDomain a b).1 ≤ a ∧ b ≤ (niceDomain a b).2 :=
  niceLoop_le 10 none a b

theorem niceDomain_nicePair (a b : ℚ) (hab : a < b) :
    NicePair (niceDomain a b).1 (niceDomain a b).2 :=
  niceLoop_first a b hab 9

theorem scaleLinearAt_left (d0 d1 r0 r1 : ℚ) (h : d0 < d1) :
    scaleLinearAt d0 d1 r0 r1 d0 = r0 := by
  rw [scaleLinearAt, if_neg (sub_ne_zero.mpr (ne_of_gt h))]
  simp

theorem scaleLinearAt_right (d0 d1 r0 r1 : ℚ) (h : d0 < d1) :
    scaleLinearAt d0 d1 r0 r1 d1 = r1 := by
  rw [scaleLinearAt, if_neg (sub_ne_zero.mpr (ne_of_gt h))]
  rw [div_self (sub_ne_zero.mpr (ne_of_gt h))]
  ring

theorem scaleLinearAt_anti (d0 d1 r0 r1 : ℚ) (h : d0 < d1) (hr : r1 < r0)
    (v w : ℚ) (hvw : v < w) :
    scaleLinearAt d0 d1 r0 r1 w < scaleLinearAt d0 d1 r0 r1 v := by
  rw [scaleLinearAt, scaleLinearAt, if_neg (sub_ne_zero.mpr (ne_of_gt h)),
    if_neg (sub_ne_zero.mpr (ne_of_gt h))]
  have hD : (0 : ℚ) < d1 - d0 := by linarith
  have hs : (r1 - r0) / (d1 - d0) < 0 := div_neg_of_neg_of_pos (by linarith) hD
  have hkey : (w - d0) / (d1 - d0) * (r1 - r0) - (v - d0) / (d1 - d0) * (r1 - r0) =
      (w - v) * ((r1 - r0) / (d1 - d0)) := by
    ring
  have hneg : (w - v) * ((r1 - r0) / (d1 - d0)) < 0 :=
    mul_neg_of_pos_of_neg (by linarith) hs
  linarith

/-- C7 counterexample: when every visible value is 0 (a bpm of 0 satisfies
the data-model invariant), the y domain degenerates to [0, 0] and the d3
linear scale collapses to the constant mid-range pixel 210, so the mapping
does not send the domain start to height - bottomMargin = 370 and does not
map the domain onto [height - bottomMargin, topMargin]. -/
theorem yScale_degenerate_all_zero :
    yScaleFor cfg800 [0] 0 = 210 ∧
      (210 : ℚ) ≠ cfg800.height - cfg800.bottom ∧
      ∀ v : ℚ, yScaleFor cfg800 [0] v = 210 := by
  have h1 : yDomainRaw [0] = (0, 0) := by
    rw [yDomainRaw]
    norm_num [d3minQ, d3maxQ]
  have hstep : tickIncrementQ 0 0 10 = 0 := by
    simp only [tickIncrementQ]
    norm_num
  have hv : ∀ v : ℚ, yScaleFor cfg800 [0] v = 210 := by
    intro v
    rw [yScaleFor, h1]
    rw [niceDomain, niceLoop_stop 10 none 0 0 hstep]
    rw [scaleLinearAt]
    norm_num [cfg800]
  exact ⟨hv 0, by norm_num [cfg800], hv⟩

/-- C7 (amended): for every non-empty value set with positive maximum, the
bpm scale is built on the domain [max(0, min*0.9), max*1.1] extended outward
to a pair of nice tick boundaries (integer multiples of a common 1/2/5/10
times a power-of-ten increment), and the resulting mapping sends the nice
domain start to height - bottomMargin, the nice domain end to topMargin, and
is strictly decreasing, so larger values draw higher.  When all visible
values are 0 the domain degenerates and the mapping is the constant
mid-range pixel instead. -/
theorem yScale_amended (vals : List ℚ) (hne : vals ≠ [])
    (hM : 0 < (d3maxQ vals).getD 0) :
    (niceDomain (yDomainRaw vals).1 (yDomainRaw vals).2).1 ≤ (yDomainRaw vals).1 ∧
    (yDomainRaw vals).2 ≤ (niceDomain (yDomainRaw vals).1 (yDomainRaw vals).2).2 ∧
    NicePair (niceDomain (yDomainRaw vals).1 (yDomainRaw vals).2).1
      (niceDomain (yDomainRaw vals).1 (yDomainRaw vals).2).2 ∧
    (niceDomain (yDomainRaw vals).1 (yDomainRaw vals).2).1 <
      (niceDomain (yDomainRaw vals).1 (yDomainRaw vals).2).2 ∧
    yScaleFor cfg800 vals (niceDomain (yDomainRaw vals).1 (yDomainRaw vals).2).1 =
      cfg800.height - cfg800.bottom ∧
    yScaleFor cfg800 vals (niceDomain (yDomainRaw vals).1 (yDomainRaw vals).2).2 =
      cfg800.top ∧
    ∀ v w : ℚ, v < w → yScaleFor cfg800 vals w < yScaleFor cfg800 vals v := by
  obtain ⟨m, hm, hmmem, hmb⟩ := d3minQ_spec vals hne
  obtain ⟨M, hMeq, hMmem, hMb⟩ := d3maxQ_spec vals hne
  have hMM : (d3maxQ vals).getD 0 = M := by
    rw [hMeq]
    rfl
  rw [hMM] at hM
  have hmM : m ≤ M := hMb m hmmem
  have hab : (yDomainRaw vals).1 < (yDomainRaw vals).2 := by
    rw [yDomainRaw]
    simp only [hm, hMeq, Option.getD_some]
    apply max_lt
    · linarith
    · linarith
  obtain ⟨hle1, hle2⟩ := niceDomain_le (yDomainRaw vals).1 (yDomainRaw vals).2
  have hnp := niceDomain_nicePair _ _ hab
  have hlt : (niceDomain (yDomainRaw vals).1 (yDomainRaw vals).2).1 <
      (niceDomain (yDomainRaw vals).1 (yDomainRaw vals).2).2 :=
    lt_of_le_of_lt hle1 (lt_of_lt_of_le hab hle2)
  refine ⟨hle1, hle2, hnp, hlt, ?_, ?_, ?_⟩
  · rw [yScaleFor]
    exact scaleLinearAt_left _ _ _ _ hlt
  · rw [yScaleFor]
    exact scaleLinearAt_right _ _ _ _ hlt
  · intro v w hvw
    rw [yScaleFor, yScaleFor]
    exact scaleLinearAt_anti _ _ _ _ hlt (by norm_num [cfg800]) v w hvw

/-- C7 witness: the amended scale theorem at the concrete visible value set
[100], whose maximum is positive. -/
theorem yScale_amended_witness :
    (([100] : List ℚ) ≠ [] ∧ 0 < (d3maxQ [100]).getD 0) ∧
      ((niceDomain (yDomainRaw [100]).1 (yDomainRaw [100]).2).1 ≤
          (yDomainRaw [100]).1 ∧
        (yDomainRaw [100]).2 ≤
          (niceDomain (yDomainRaw [100]).1 (yDomainRaw [100]).2).2 ∧
        NicePair (niceDomain (yDomainRaw [100]).1 (yDomainRaw [100]).2).1
          (niceDomain (yDomainRaw [100]).1 (yDomainRaw [100]).2).2 ∧
        (niceDomain (yDomainRaw [100]).1 (yDomainRaw [100]).2).1 <
          (niceDomain (yDomainRaw [100]).1 (yDomainRaw [100]).2).2 ∧
        yScaleFor cfg800 [100]
            (niceDomain (yDomainRaw [100]).1 (yDomainRaw [100]).2).1 =
          cfg800.height - cfg800.bottom ∧
        yScaleFor cfg800 [100]
            (niceDomain (yDomainRaw [100]).1 (yDomainRaw [100]).2).2 =
          cfg800.top ∧
        ∀ v w : ℚ, v < w → yScaleFor cfg800 [100] w < yScaleFor cfg800 [100] v) :=
  ⟨⟨by decide, by decide⟩, yScale_amended [100] (by decide) (by decide)⟩
